import Mathlib

/-!
Shallow embedding of the Gantt scheduling core of the lg-operations
dashboard (`src/app/projects/page.tsx`): timeline layout, the two-pass
critical-path computation, and the reschedule / dependency mutations.
Dates are modelled as integer day numbers (the source stores `YYYY-MM-DD`
strings and converts millisecond differences to whole days), and the
JavaScript objects keyed by task id are modelled as functions
`Nat → Option Int` (`none` = key absent).
-/

namespace LGOps

/-- A schedulable task.  Only the fields read by the layout and
critical-path code are modelled: `id`, `start_date`, `end_date` (day
numbers) and `dependencies`; the remaining record fields (label, status,
assignee, …) are never read by the scheduling computations. -/
structure Task where
  id : Nat
  start_date : Int
  end_date : Int
  dependencies : List Nat
deriving DecidableEq, Repr

/-- `(end − start)` in days, as computed by
`(end.getTime() - start.getTime()) / (1000*60*60*24)`. -/
def duration (t : Task) : Int := t.end_date - t.start_date

/-- One write of the initial `tasks.forEach`:
`taskDurations[task.id] = duration`. -/
def durStep (m : Nat → Option Int) (t : Task) : Nat → Option Int :=
  fun j => if j = t.id then some (duration t) else m j

/-- The `taskDurations` object: built by the initial `tasks.forEach`,
later writes to the same id win. -/
def durMapOf (ts : List Task) : Nat → Option Int :=
  ts.foldl durStep (fun _ => none)

/-- One write of the initial `tasks.forEach`: `earliestStart[task.id] = 0`. -/
def esStep (m : Nat → Option Int) (t : Task) : Nat → Option Int :=
  fun j => if j = t.id then some 0 else m j

/-- The `earliestStart` object right after initialisation: every task id
maps to `0`. -/
def esInit (ts : List Task) : Nat → Option Int :=
  ts.foldl esStep (fun _ => none)

/-- One step of the inner `task.dependencies.forEach` of the forward
pass: raise the current `earliestStart[task.id]` to
`earliestStart[depId] + taskDurations[depId]` whenever that is larger.
A dependency id absent from the maps is skipped (in JS the lookup gives
`undefined`, `undefined + d` is `NaN`, and `NaN > x` is false). -/
def depUpdate (dm es : Nat → Option Int) (c : Int) (d : Nat) : Int :=
  match es d, dm d with
  | some e, some du => if c < e + du then e + du else c
  | _, _ => c

/-- The inner `task.dependencies.forEach` of the forward pass, folded
over the whole dependency list. -/
def depFold (dm es : Nat → Option Int) : Int → List Nat → Int
  | c, [] => c
  | c, d :: ds => depFold dm es (depUpdate dm es c d) ds

/-- One iteration of the forward pass `tasks.forEach`.  (The source also
computes a `startOffset` for the task from its declared start date, but
that local is never used.) -/
def fwdStep (dm : Nat → Option Int) (es : Nat → Option Int) (t : Task) : Nat → Option Int :=
  let cur := depFold dm es ((es t.id).getD 0) t.dependencies
  fun j => if j = t.id then some cur else es j

/-- The forward pass over a task list, from a given `earliestStart` state. -/
def fwdFold (dm : Nat → Option Int) (ts : List Task) (es : Nat → Option Int) :
    Nat → Option Int :=
  ts.foldl (fwdStep dm) es

/-- `earliestStart` after `forwardPass()`. -/
def forwardPass (ts : List Task) : Nat → Option Int :=
  fwdFold (durMapOf ts) ts (esInit ts)

/-- Insert into an ascending list of keys. -/
def insertAsc (i : Nat) : List Nat → List Nat
  | [] => [i]
  | j :: js => if i ≤ j then i :: j :: js else j :: insertAsc i js

/-- Sort a list of keys ascending. -/
def sortAsc (l : List Nat) : List Nat := l.foldr insertAsc []

/-- The key list of an integer-keyed JS object: distinct keys, ascending
numeric order (the order `Object.values` enumerates). -/
def objectKeys (ts : List Task) : List Nat := sortAsc (ts.map Task.id).dedup

/-- The list
`Object.values(earliestStart).map((es, idx) => es + taskDurations[tasks[idx].id])`:
`Object.values` enumerates `earliestStart` in ascending id order while
`tasks[idx]` follows input order, so each value is paired with the
duration of the task at the same *position*, not the same id. -/
def efPairs (ts : List Task) : List Int :=
  List.zipWith (fun i t => ((forwardPass ts) i).getD 0 + ((durMapOf ts) t.id).getD 0)
    (objectKeys ts) ts

/-- `maxFinish = Math.max(...)` over `efPairs`.  The empty case (where JS
yields `-Infinity`) is arbitrary here: with no tasks the backward loop
never runs, so the value is never read. -/
def maxFinishD (ts : List Task) : Int :=
  match efPairs ts with
  | [] => 0
  | h :: tl => tl.foldl max h

/-- One iteration of the backward pass: set `latestFinish[task.id]` to
`maxFinish`, then for every task whose dependencies contain `task.id`
tighten it to `latestFinish[other] - taskDurations[other]` when smaller.
`none` models the `Infinity` initialisation (`Infinity − d` is `Infinity`,
never below the current value, so such entries are skipped). -/
def bwdStep (ts : List Task) (dm : Nat → Option Int) (mf : Int)
    (lf : Nat → Option Int) (t : Task) : Nat → Option Int :=
  let cur := ts.foldl (fun c u =>
      if t.id ∈ u.dependencies then
        match (if u.id = t.id then some c else lf u.id), dm u.id with
        | some v, some du => if v - du < c then v - du else c
        | _, _ => c
      else c) mf
  fun j => if j = t.id then some cur else lf j

/-- `latestFinish` after `backwardPass()`. -/
def backwardPass (ts : List Task) : Nat → Option Int :=
  ts.foldl (bwdStep ts (durMapOf ts) (maxFinishD ts)) (fun _ => none)

/-- `latestFinish[task.id] - (earliestStart[task.id] + taskDurations[task.id])`. -/
def slack (ts : List Task) (t : Task) : Int :=
  ((backwardPass ts) t.id).getD 0 -
    (((forwardPass ts) t.id).getD 0 + ((durMapOf ts) t.id).getD 0)

/-- `calculateCriticalPath`: ids of the tasks whose slack is exactly `0`. -/
def calculateCriticalPath (ts : List Task) : List Nat :=
  (ts.filter (fun t => slack ts t == 0)).map Task.id

/-- `earliestDate`: reduce over all tasks taking the minimal start, seeded
with `tasks[0]` (or the current instant `now` when the list is empty). -/
def earliestDate (ts : List Task) (now : Int) : Int :=
  match ts with
  | [] => now
  | t :: _ => ts.foldl (fun acc u => if u.start_date < acc then u.start_date else acc) t.start_date

/-- `latestDate`: reduce over all tasks taking the maximal end, seeded
with `tasks[0]` (or `now` when the list is empty). -/
def latestDate (ts : List Task) (now : Int) : Int :=
  match ts with
  | [] => now
  | t :: _ => ts.foldl (fun acc u => if acc < u.end_date then u.end_date else acc) t.end_date

/-- `totalDays = latestDate − earliestDate`, in days. -/
def totalDays (ts : List Task) (now : Int) : Int := latestDate ts now - earliestDate ts now

/-- A JavaScript number as produced by `1000 / totalDays`: either finite
or `Infinity`. -/
inductive JsNum where
  | fin (q : ℚ)
  | posInf
deriving DecidableEq, Repr

/-- `pixelsPerDay = 1000 / totalDays`, with JS division semantics for the
positive constant numerator: a zero divisor yields `Infinity`. -/
def pixelsPerDay (ts : List Task) (now : Int) : JsNum :=
  if totalDays ts now = 0 then JsNum.posInf else JsNum.fin (1000 / (totalDays ts now : ℚ))

/-- Divide a finite value by a `JsNum`: a finite value divided by
`Infinity` is `0`.  (In this development the finite case always has a
nonzero divisor, since `1000 / d ≠ 0` for every nonzero `d`.) -/
def jsDivBy (a : ℚ) : JsNum → ℚ
  | JsNum.posInf => 0
  | JsNum.fin p => a / p

/-- `Math.round`: nearest integer, ties towards positive infinity. -/
def jsRound (q : ℚ) : ℤ := Int.floor (q + 1/2)

/-- `handleDragMove` after its guards (the drag is on the found task):
`deltaDays = e.evt.deltaX / pixelsPerDay`, and both dates are shifted by
`Math.round(deltaDays)` days before being handed to `onUpdateTaskDates`.
Returns the `(newStart, newEnd)` pair. -/
def handleDragMove (ts : List Task) (now : Int) (taskId : Nat) (deltaX : ℚ) :
    Option (Int × Int) :=
  match ts.find? (fun t => t.id == taskId) with
  | none => none
  | some t =>
    let deltaDays := jsDivBy deltaX (pixelsPerDay ts now)
    some (t.start_date + jsRound deltaDays, t.end_date + jsRound deltaDays)

/-- `handleUpdateTaskDates` writes the new dates for the task row and the
page refetches: the resulting collection replaces exactly that task's
`start_date`/`end_date`.  No validation is performed. -/
def handleUpdateTaskDates (ts : List Task) (taskId : Nat) (s e : Int) : List Task :=
  ts.map (fun t => if t.id = taskId then { t with start_date := s, end_date := e } else t)

/-- `handleUpdateDependencies` writes the given dependency list for the
task row and the page refetches: the resulting collection replaces
exactly that task's `dependencies`.  No validation is performed. -/
def handleUpdateDependencies (ts : List Task) (taskId : Nat) (deps : List Nat) : List Task :=
  ts.map (fun t => if t.id = taskId then { t with dependencies := deps } else t)

/-- `handleLinkEnd`: releasing a link-drag on `targetTaskId`.  Releasing
on the source task itself (or with no active link) changes nothing;
otherwise the target id is appended to the source task's dependency list
via `onUpdateDependencies`. -/
def handleLinkEnd (ts : List Task) (linkingTask : Option Nat) (targetTaskId : Nat) :
    List Task :=
  match linkingTask with
  | none => ts
  | some src =>
    if src = targetTaskId then ts
    else
      match ts.find? (fun t => t.id == src) with
      | none => ts
      | some t => handleUpdateDependencies ts src (t.dependencies ++ [targetTaskId])

/-! ### Helper lemmas about the map folds -/

theorem fwdStep_apply (dm es : Nat → Option Int) (t : Task) (j : Nat) :
    fwdStep dm es t j =
      if j = t.id then some (depFold dm es ((es t.id).getD 0) t.dependencies) else es j := rfl

theorem fwdFold_nil (dm : Nat → Option Int) (es : Nat → Option Int) :
    fwdFold dm [] es = es := rfl

theorem fwdFold_cons (dm : Nat → Option Int) (t : Task) (l : List Task)
    (es : Nat → Option Int) : fwdFold dm (t :: l) es = fwdFold dm l (fwdStep dm es t) := rfl

theorem fwdFold_append (dm : Nat → Option Int) (l1 l2 : List Task)
    (es : Nat → Option Int) : fwdFold dm (l1 ++ l2) es = fwdFold dm l2 (fwdFold dm l1 es) := by
  simp [fwdFold, List.foldl_append]

theorem fwdFold_stable (dm : Nat → Option Int) (l : List Task) (es : Nat → Option Int)
    (i : Nat) (h : ∀ u ∈ l, u.id ≠ i) : fwdFold dm l es i = es i := by
  induction l generalizing es with
  | nil => rfl
  | cons t l ih =>
    rw [fwdFold_cons, ih _ (fun u hu => h u (List.mem_cons_of_mem _ hu))]
    rw [fwdStep_apply, if_neg]
    exact fun hc => h t (List.mem_cons_self _ _) hc.symm

theorem fwdFold_isSome (dm : Nat → Option Int) (l : List Task) (es : Nat → Option Int)
    (i : Nat) (h : (es i).isSome) : ((fwdFold dm l es) i).isSome := by
  induction l generalizing es with
  | nil => exact h
  | cons t l ih =>
    rw [fwdFold_cons]
    refine ih _ ?_
    rw [fwdStep_apply]
    split
    · rfl
    · exact h

theorem esInit_eq_some (ts : List Task) (i : Nat) (h : i ∈ ts.map Task.id) :
    esInit ts i = some 0 := by
  have aux : ∀ (l : List Task) (m : Nat → Option Int),
      (m i = some 0 ∨ i ∈ l.map Task.id) → l.foldl esStep m i = some 0 := by
    intro l
    induction l with
    | nil =>
      intro m hm
      rcases hm with hm | hm
      · exact hm
      · simp at hm
    | cons t l ih =>
      intro m hm
      show l.foldl esStep (esStep m t) i = some 0
      rcases hm with hm | hm
      · refine ih _ (Or.inl ?_)
        show (if i = t.id then some 0 else m i) = some 0
        split <;> simp [hm]
      · rcases List.mem_map.mp hm with ⟨u, hu, hui⟩
        rcases List.mem_cons.mp hu with hu | hu
        · refine ih _ (Or.inl ?_)
          show (if i = t.id then some 0 else m i) = some 0
          rw [if_pos (by rw [← hui, hu])]
        · exact ih _ (Or.inr (List.mem_map.mpr ⟨u, hu, hui⟩))
  exact aux ts _ (Or.inr h)

theorem durFold_stable (l : List Task) (m : Nat → Option Int) (i : Nat)
    (h : ∀ u ∈ l, u.id ≠ i) : l.foldl durStep m i = m i := by
  induction l generalizing m with
  | nil => rfl
  | cons t l ih =>
    show l.foldl durStep (durStep m t) i = m i
    rw [ih _ (fun u hu => h u (List.mem_cons_of_mem _ hu))]
    show (if i = t.id then some (duration t) else m i) = m i
    rw [if_neg (fun hc => h t (List.mem_cons_self _ _) hc.symm)]

theorem durMapOf_eq_of_nodup (ts : List Task) (t : Task)
    (hnd : (ts.map Task.id).Nodup) (ht : t ∈ ts) :
    durMapOf ts t.id = some (duration t) := by
  have aux : ∀ (l : List Task) (m : Nat → Option Int),
      (l.map Task.id).Nodup → t ∈ l → l.foldl durStep m t.id = some (duration t) := by
    intro l
    induction l with
    | nil => intro m _ ht; simp at ht
    | cons u l ih =>
      intro m hnd ht
      have hnd' := hnd
      rw [List.map_cons, List.nodup_cons] at hnd'
      rcases List.mem_cons.mp ht with ht | ht
      · show l.foldl durStep (durStep m u) t.id = some (duration t)
        rw [durFold_stable]
        · show (if t.id = u.id then some (duration u) else m t.id) = some (duration t)
          rw [ht, if_pos rfl]
        · intro v hv hc
          exact hnd'.1 (by rw [← ht, ← hc]; exact List.mem_map_of_mem Task.id hv)
      · exact ih _ hnd'.2 ht
  exact aux ts _ hnd ht

theorem le_depUpdate (dm es : Nat → Option Int) (c : Int) (d : Nat) :
    c ≤ depUpdate dm es c d := by
  unfold depUpdate
  rcases es d with _ | e <;> rcases dm d with _ | du <;> try exact le_refl c
  simp only
  split <;> omega

theorem depUpdate_ge (dm es : Nat → Option Int) (c : Int) (d : Nat) (e du : Int)
    (hes : es d = some e) (hdm : dm d = some du) : e + du ≤ depUpdate dm es c d := by
  unfold depUpdate
  rw [hes, hdm]
  simp only
  split <;> omega

theorem depUpdate_congr (dm1 dm2 es1 es2 : Nat → Option Int) (c : Int) (d : Nat)
    (hes : es1 d = es2 d) (hdm : dm1 d = dm2 d) :
    depUpdate dm1 es1 c d = depUpdate dm2 es2 c d := by
  unfold depUpdate
  rw [hes, hdm]

theorem depFold_init_le (dm es : Nat → Option Int) (deps : List Nat) (c : Int) :
    c ≤ depFold dm es c deps := by
  induction deps generalizing c with
  | nil => exact le_refl c
  | cons d deps ih => exact le_trans (le_depUpdate dm es c d) (ih _)

theorem depFold_ge_of_mem (dm es : Nat → Option Int) (deps : List Nat) (c : Int)
    (d : Nat) (e du : Int) (hd : d ∈ deps) (hes : es d = some e) (hdm : dm d = some du) :
    e + du ≤ depFold dm es c deps := by
  induction deps generalizing c with
  | nil => simp at hd
  | cons d' deps ih =>
    rcases List.mem_cons.mp hd with hd' | hd'
    · subst hd'
      exact le_trans (depUpdate_ge dm es c d e du hes hdm) (depFold_init_le dm es deps _)
    · exact ih _ hd'

theorem depFold_congr (dm1 dm2 es1 es2 : Nat → Option Int) (deps : List Nat) (c : Int)
    (hes : ∀ d ∈ deps, es1 d = es2 d) (hdm : ∀ d ∈ deps, dm1 d = dm2 d) :
    depFold dm1 es1 c deps = depFold dm2 es2 c deps := by
  induction deps generalizing c with
  | nil => rfl
  | cons d deps ih =>
    show depFold dm1 es1 _ deps = depFold dm2 es2 _ deps
    rw [depUpdate_congr dm1 dm2 es1 es2 c d (hes d (List.mem_cons_self _ _))
      (hdm d (List.mem_cons_self _ _))]
    exact ih _ (fun x hx => hes x (List.mem_cons_of_mem _ hx))
      (fun x hx => hdm x (List.mem_cons_of_mem _ hx))

theorem foldStart_const (d : Int) :
    ∀ (l : List Task) (acc : Int), (∀ u ∈ l, u.start_date = d) → acc = d →
      l.foldl (fun a u => if u.start_date < a then u.start_date else a) acc = d := by
  intro l
  induction l with
  | nil => intro acc _ hacc; exact hacc
  | cons u l ih =>
    intro acc h hacc
    rw [List.foldl_cons]
    refine ih _ (fun v hv => h v (List.mem_cons_of_mem _ hv)) ?_
    rw [h u (List.mem_cons_self _ _), hacc]
    split <;> rfl

theorem foldEnd_const (d : Int) :
    ∀ (l : List Task) (acc : Int), (∀ u ∈ l, u.end_date = d) → acc = d →
      l.foldl (fun a u => if a < u.end_date then u.end_date else a) acc = d := by
  intro l
  induction l with
  | nil => intro acc _ hacc; exact hacc
  | cons u l ih =>
    intro acc h hacc
    rw [List.foldl_cons]
    refine ih _ (fun v hv => h v (List.mem_cons_of_mem _ hv)) ?_
    rw [h u (List.mem_cons_self _ _), hacc]
    split <;> rfl

theorem totalDays_zero_of_const (ts : List Task) (now d : Int) (hne : ts ≠ [])
    (h : ∀ t ∈ ts, t.start_date = d ∧ t.end_date = d) : totalDays ts now = 0 := by
  cases ts with
  | nil => exact absurd rfl hne
  | cons u l =>
    have h1 : earliestDate (u :: l) now = d :=
      foldStart_const d (u :: l) u.start_date (fun v hv => (h v hv).1)
        (h u (List.mem_cons_self _ _)).1
    have h2 : latestDate (u :: l) now = d :=
      foldEnd_const d (u :: l) u.end_date (fun v hv => (h v hv).2)
        (h u (List.mem_cons_self _ _)).2
    show latestDate (u :: l) now - earliestDate (u :: l) now = 0
    rw [h1, h2, sub_self]

theorem esFold_map_eq (g : Task → Task) (hid : ∀ t, (g t).id = t.id) :
    ∀ (l : List Task) (m1 m2 : Nat → Option Int), (∀ i, m1 i = m2 i) →
      ∀ i, (l.map g).foldl esStep m1 i = l.foldl esStep m2 i := by
  intro l
  induction l with
  | nil => intro m1 m2 h i; exact h i
  | cons u l ih =>
    intro m1 m2 h i
    rw [List.map_cons, List.foldl_cons, List.foldl_cons]
    refine ih _ _ ?_ i
    intro j
    show (if j = (g u).id then some 0 else m1 j) = (if j = u.id then some 0 else m2 j)
    rw [hid u, h j]

theorem durFold_map_agree (g : Task → Task) (tId : Nat) (hid : ∀ t, (g t).id = t.id)
    (hfix : ∀ t, t.id ≠ tId → g t = t) :
    ∀ (l : List Task) (m1 m2 : Nat → Option Int), (∀ i, i ≠ tId → m1 i = m2 i) →
      ∀ i, i ≠ tId → (l.map g).foldl durStep m1 i = l.foldl durStep m2 i := by
  intro l
  induction l with
  | nil => intro m1 m2 h i hi; exact h i hi
  | cons u l ih =>
    intro m1 m2 h i hi
    rw [List.map_cons, List.foldl_cons, List.foldl_cons]
    refine ih _ _ ?_ i hi
    intro j hj
    show (if j = (g u).id then some (duration (g u)) else m1 j) =
      (if j = u.id then some (duration u) else m2 j)
    rw [hid u]
    by_cases hju : j = u.id
    · rw [if_pos hju, if_pos hju, hfix u (by rw [← hju]; exact hj)]
    · rw [if_neg hju, if_neg hju, h j hj]

theorem fwdFold_map_agree (g : Task → Task) (tId : Nat) (hid : ∀ t, (g t).id = t.id)
    (hfix : ∀ t, t.id ≠ tId → g t = t)
    (dm1 dm2 : Nat → Option Int) (hdm : ∀ i, i ≠ tId → dm1 i = dm2 i) :
    ∀ (l : List Task) (es1 es2 : Nat → Option Int),
      (∀ u ∈ l, u.id ≠ tId → tId ∉ u.dependencies) →
      (∀ i, i ≠ tId → es1 i = es2 i) →
      ∀ i, i ≠ tId → fwdFold dm1 (l.map g) es1 i = fwdFold dm2 l es2 i := by
  intro l
  induction l with
  | nil => intro es1 es2 _ h i hi; exact h i hi
  | cons u l ih =>
    intro es1 es2 hnodep h i hi
    rw [List.map_cons, fwdFold_cons, fwdFold_cons]
    refine ih _ _ (fun v hv => hnodep v (List.mem_cons_of_mem _ hv)) ?_ i hi
    intro j hj
    rw [fwdStep_apply, fwdStep_apply, hid u]
    by_cases hju : j = u.id
    · rw [if_pos hju, if_pos hju]
      have huid : u.id ≠ tId := by rw [← hju]; exact hj
      have hu : g u = u := hfix u huid
      have hdeps : tId ∉ u.dependencies := hnodep u (List.mem_cons_self _ _) huid
      rw [hu, h u.id huid,
        depFold_congr dm1 dm2 es1 es2 u.dependencies _
          (fun d hd => h d (fun hc => hdeps (hc ▸ hd)))
          (fun d hd => hdm d (fun hc => hdeps (hc ▸ hd)))]
    · rw [if_neg hju, if_neg hju]
      exact h j hj

theorem find?_setDependencies (ts : List Task) (i : Nat) (deps : List Nat) (t : Task)
    (hfind : ts.find? (fun u => u.id == i) = some t) :
    (handleUpdateDependencies ts i deps).find? (fun u => u.id == i) =
      some { t with dependencies := deps } := by
  induction ts with
  | nil => simp at hfind
  | cons u l ih =>
    by_cases hui : u.id = i
    · have hp : ((fun v : Task => v.id == i) u) = true := by simp [hui]
      rw [@List.find?_cons_of_pos _ (fun v : Task => v.id == i) u l hp] at hfind
      have hfu : t = u := (Option.some.inj hfind).symm
      have hp2 : ((fun v : Task => v.id == i) { u with dependencies := deps }) = true := by
        simp [hui]
      show ((u :: l).map
        (fun v => if v.id = i then { v with dependencies := deps } else v)).find?
          (fun v => v.id == i) = some { t with dependencies := deps }
      rw [List.map_cons, if_pos hui,
        @List.find?_cons_of_pos _ (fun v : Task => v.id == i) _ _ hp2, hfu]
    · have hp : ¬ ((fun v : Task => v.id == i) u) = true := by simp [hui]
      rw [@List.find?_cons_of_neg _ (fun v : Task => v.id == i) u l hp] at hfind
      show ((u :: l).map
        (fun v => if v.id = i then { v with dependencies := deps } else v)).find?
          (fun v => v.id == i) = some { t with dependencies := deps }
      rw [List.map_cons, if_neg hui,
        @List.find?_cons_of_neg _ (fun v : Task => v.id == i) u _ hp]
      exact ih hfind

/-! ### Claim theorems -/

/-- C1: the claim says the forward pass assigns
`earliest_start[t] = max(t.start, max over deps of earliest_finish)`, so a
task with no dependencies keeps its own declared start.  The code
initialises `earliestStart` to `0` and never uses the task's declared
start (the `startOffset` local in `forwardPass` is dead): here task `2`
has no dependencies and declared start `5` (with the timeline origin at
`0`), yet its computed earliest start is `0`, the timeline origin. -/
theorem forwardPass_drops_declared_start :
    (⟨2, 5, 6, []⟩ : Task).dependencies = [] ∧
    (⟨2, 5, 6, []⟩ : Task).start_date = 5 ∧
    forwardPass [⟨1, 0, 1, []⟩, ⟨2, 5, 6, []⟩] 2 = some 0 ∧
    forwardPass [⟨1, 0, 1, []⟩, ⟨2, 5, 6, []⟩] 2 ≠ some ((⟨2, 5, 6, []⟩ : Task).start_date) := by
  decide

/-- C2: an empty collection does yield an empty critical path, but the
claimed non-emptiness for non-empty collections fails: in this two-task
collection (task `1` depends on task `2`, dependencies listed before
dependents, distinct ids, `end ≥ start`) `maxFinish` pairs the
`Object.values` of `earliestStart` (ascending id order) with the
durations of `tasks[idx]` (input order), so no task ends with zero slack
and the critical path is empty. -/
theorem criticalPath_empty_on_nonempty :
    calculateCriticalPath [] = [] ∧
    ([⟨2, 0, 3, []⟩, ⟨1, 0, 1, [2]⟩] : List Task) ≠ [] ∧
    calculateCriticalPath [⟨2, 0, 3, []⟩, ⟨1, 0, 1, [2]⟩] = [] := by
  decide

/-- C3: the claim says slack is non-negative on every acyclic, internally
consistent collection.  This three-task collection is internally
consistent (distinct ids, every dependency exists, no self-dependency,
dependencies precede dependents in input order, `end ≥ start`), yet the
mispaired `maxFinish` computation gives task `3` slack `-5`. -/
theorem slack_negative_on_consistent :
    (([⟨2, 0, 5, []⟩, ⟨3, 0, 5, [2]⟩, ⟨1, 0, 0, []⟩] : List Task).map Task.id).Nodup ∧
    (∀ t ∈ ([⟨2, 0, 5, []⟩, ⟨3, 0, 5, [2]⟩, ⟨1, 0, 0, []⟩] : List Task),
      t.start_date ≤ t.end_date ∧ ∀ d ∈ t.dependencies,
        d ≠ t.id ∧ d ∈ ([⟨2, 0, 5, []⟩, ⟨3, 0, 5, [2]⟩, ⟨1, 0, 0, []⟩] : List Task).map Task.id) ∧
    slack [⟨2, 0, 5, []⟩, ⟨3, 0, 5, [2]⟩, ⟨1, 0, 0, []⟩] ⟨3, 0, 5, [2]⟩ = -5 := by
  decide

/-- C4 (counterexample): the claim quantifies over every task collection,
but the forward pass is a single sweep in input order; here `b = 3`
depends on `a = 2`, which itself depends on `1`, and the input lists
dependents first, so `earliest_start[3] = 3` is below
`earliest_finish[2] = 2 + 3 = 5`. -/
theorem forwardPass_edge_violated_unordered :
    ((2 : Nat) ∈ (⟨3, 0, 3, [2]⟩ : Task).dependencies) ∧
    forwardPass [⟨3, 0, 3, [2]⟩, ⟨2, 0, 3, [1]⟩, ⟨1, 0, 2, []⟩] 3 = some 3 ∧
    forwardPass [⟨3, 0, 3, [2]⟩, ⟨2, 0, 3, [1]⟩, ⟨1, 0, 2, []⟩] 2 = some 2 ∧
    durMapOf [⟨3, 0, 3, [2]⟩, ⟨2, 0, 3, [1]⟩, ⟨1, 0, 2, []⟩] 2 = some 3 ∧
    ¬ ((2 : Int) + 3 ≤ 3) := by
  decide

/-- C4 (amended): for every dependency edge `a → b` whose dependency `a`
occurs earlier in the task list than its dependent `b` (and distinct task
ids), the forward pass yields
`earliest_start[b] ≥ earliest_start[a] + duration[a] = earliest_finish[a]`. -/
theorem forwardPass_edge_ge (l1 l2 : List Task) (a b : Task)
    (hnd : ((l1 ++ b :: l2).map Task.id).Nodup) (ha : a ∈ l1)
    (hdep : a.id ∈ b.dependencies) :
    ∃ ea eb : Int,
      forwardPass (l1 ++ b :: l2) a.id = some ea ∧
      forwardPass (l1 ++ b :: l2) b.id = some eb ∧
      ea + duration a ≤ eb := by
  have hmap : (l1 ++ b :: l2).map Task.id = l1.map Task.id ++ (b :: l2).map Task.id :=
    List.map_append _ _ _
  have hnd' := hnd
  rw [hmap, List.nodup_append] at hnd'
  have haid : a.id ∈ l1.map Task.id := List.mem_map_of_mem _ ha
  have hanotb : a.id ∉ (b :: l2).map Task.id := hnd'.2.2 haid
  have hab : a.id ≠ b.id := by
    intro hc
    exact hanotb (by rw [hc]; exact List.mem_map_of_mem _ (List.mem_cons_self b l2))
  have hl2a : ∀ u ∈ l2, u.id ≠ a.id := by
    intro u hu hc
    exact hanotb (by rw [← hc]; exact List.mem_map_of_mem _ (List.mem_cons_of_mem _ hu))
  have hl2b : ∀ u ∈ l2, u.id ≠ b.id := by
    have hnd2 := hnd'.2.1
    rw [List.map_cons, List.nodup_cons] at hnd2
    intro u hu hc
    exact hnd2.1 (by rw [← hc]; exact List.mem_map_of_mem _ hu)
  have hfp : forwardPass (l1 ++ b :: l2) =
      fwdFold (durMapOf (l1 ++ b :: l2)) l2
        (fwdStep (durMapOf (l1 ++ b :: l2))
          (fwdFold (durMapOf (l1 ++ b :: l2)) l1 (esInit (l1 ++ b :: l2))) b) := by
    have h0 : forwardPass (l1 ++ b :: l2) =
        fwdFold (durMapOf (l1 ++ b :: l2)) (l1 ++ b :: l2) (esInit (l1 ++ b :: l2)) := rfl
    rw [h0, fwdFold_append, fwdFold_cons]
  have hsome : ((fwdFold (durMapOf (l1 ++ b :: l2)) l1 (esInit (l1 ++ b :: l2))) a.id).isSome := by
    apply fwdFold_isSome
    rw [esInit_eq_some]
    · rfl
    · rw [hmap]
      exact List.mem_append_left _ haid
  obtain ⟨ea, hea⟩ := Option.isSome_iff_exists.mp hsome
  have hava : forwardPass (l1 ++ b :: l2) a.id = some ea := by
    rw [hfp, fwdFold_stable _ _ _ _ hl2a, fwdStep_apply, if_neg hab, hea]
  have hdm : durMapOf (l1 ++ b :: l2) a.id = some (duration a) :=
    durMapOf_eq_of_nodup _ a hnd (List.mem_append_left _ ha)
  have hb : forwardPass (l1 ++ b :: l2) b.id =
      some (depFold (durMapOf (l1 ++ b :: l2))
        (fwdFold (durMapOf (l1 ++ b :: l2)) l1 (esInit (l1 ++ b :: l2)))
        (((fwdFold (durMapOf (l1 ++ b :: l2)) l1 (esInit (l1 ++ b :: l2))) b.id).getD 0)
        b.dependencies) := by
    rw [hfp, fwdFold_stable _ _ _ _ hl2b, fwdStep_apply, if_pos rfl]
  exact ⟨ea, _, hava, hb, depFold_ge_of_mem _ _ _ _ a.id ea (duration a) hdep hea hdm⟩

/-- C4 (witness): the amended theorem applied to a two-task collection
`1 → 2` listed in dependency order. -/
theorem forwardPass_edge_ge_witness :
    ∃ ea eb : Int,
      forwardPass [⟨1, 0, 2, []⟩, ⟨2, 0, 3, [1]⟩] 1 = some ea ∧
      forwardPass [⟨1, 0, 2, []⟩, ⟨2, 0, 3, [1]⟩] 2 = some eb ∧
      ea + duration ⟨1, 0, 2, []⟩ ≤ eb :=
  forwardPass_edge_ge [⟨1, 0, 2, []⟩] [] ⟨1, 0, 2, []⟩ ⟨2, 0, 3, [1]⟩
    (by decide) (by decide) (by decide)

/-- C5 (counterexample): the claim says a zero-span collection gets
`pixels_per_day` equal to the fixed budget `1000`; on a single task whose
start and end coincide the unguarded `1000 / totalDays` instead yields
`Infinity`. -/
theorem pixelsPerDay_not_budget_on_zero_span :
    pixelsPerDay [⟨1, 5, 5, []⟩] 0 = JsNum.posInf ∧
    JsNum.posInf ≠ JsNum.fin 1000 := by
  decide

/-- C5 (amended): on every non-empty collection whose tasks all share one
identical start and end date, `pixelsPerDay` is the JS `Infinity` — the
division `1000 / totalDays` is not guarded against a zero span. -/
theorem pixelsPerDay_zero_span_inf (ts : List Task) (now d : Int) (hne : ts ≠ [])
    (h : ∀ t ∈ ts, t.start_date = d ∧ t.end_date = d) :
    pixelsPerDay ts now = JsNum.posInf := by
  show (if totalDays ts now = 0 then JsNum.posInf else JsNum.fin (1000 / (totalDays ts now : ℚ)))
    = JsNum.posInf
  rw [totalDays_zero_of_const ts now d hne h]
  rfl

/-- C5 (witness): the amended theorem applied to one task with
`start = end = 5`. -/
theorem pixelsPerDay_zero_span_inf_witness :
    ([⟨1, 5, 5, []⟩] : List Task) ≠ [] ∧ pixelsPerDay [⟨1, 5, 5, []⟩] 0 = JsNum.posInf :=
  ⟨by decide, pixelsPerDay_zero_span_inf [⟨1, 5, 5, []⟩] 0 5 (by decide) (by decide)⟩

/-- C6 (counterexample): the claim says a call whose dependency list
contains the task's own id is rejected and the stored set left
unchanged; `handleUpdateDependencies` performs no validation, so
`set_dependencies(5, [5])` stores the self-dependency. -/
theorem setDependencies_self_accepted :
    handleUpdateDependencies [⟨5, 0, 1, []⟩] 5 [5] = [⟨5, 0, 1, [5]⟩] ∧
    ([⟨5, 0, 1, [5]⟩] : List Task) ≠ [⟨5, 0, 1, []⟩] := by
  decide

/-- C6 (amended): `handleUpdateDependencies` validates nothing: whatever
the given list contains (the task's own id, ids absent from the
collection), the targeted task's stored dependency list becomes exactly
that list, and every other task is left unchanged. -/
theorem setDependencies_no_validation (ts : List Task) (i : Nat) (deps : List Nat) (t : Task)
    (hfind : ts.find? (fun u => u.id == i) = some t) :
    (handleUpdateDependencies ts i deps).find? (fun u => u.id == i) =
      some { t with dependencies := deps } ∧
    ∀ u ∈ ts, u.id ≠ i → u ∈ handleUpdateDependencies ts i deps := by
  refine ⟨find?_setDependencies ts i deps t hfind, ?_⟩
  intro u hu hui
  have hfu : (fun v : Task => if v.id = i then { v with dependencies := deps } else v) u = u :=
    if_neg hui
  show u ∈ ts.map (fun v : Task => if v.id = i then { v with dependencies := deps } else v)
  rw [← hfu]
  exact List.mem_map_of_mem _ hu

/-- C6 (witness): the amended theorem applied to the self-dependency call
`set_dependencies(5, [5])` on a singleton collection. -/
theorem setDependencies_no_validation_witness :
    ((handleUpdateDependencies [⟨5, 0, 1, []⟩] 5 [5]).find? (fun u => u.id == 5) =
      some { (⟨5, 0, 1, []⟩ : Task) with dependencies := [5] }) ∧
    ∀ u ∈ ([⟨5, 0, 1, []⟩] : List Task), u.id ≠ 5 →
      u ∈ handleUpdateDependencies [⟨5, 0, 1, []⟩] 5 [5] :=
  setDependencies_no_validation [⟨5, 0, 1, []⟩] 5 [5] ⟨5, 0, 1, []⟩ (by decide)

/-- C7: membership in the computed critical path is exactly zero slack:
for distinct task ids, a task's id is in `calculateCriticalPath` iff its
slack is `0` — the filter uses exact equality, with no tolerance band. -/
theorem criticalPath_mem_iff_slack_zero (ts : List Task) (t : Task)
    (hnd : (ts.map Task.id).Nodup) (ht : t ∈ ts) :
    t.id ∈ calculateCriticalPath ts ↔ slack ts t = 0 := by
  constructor
  · intro h
    rcases List.mem_map.mp h with ⟨u, hu, hid⟩
    rcases List.mem_filter.mp hu with ⟨humem, hslack⟩
    have hut : u = t := List.inj_on_of_nodup_map hnd humem ht hid
    rw [← hut]
    simpa using hslack
  · intro h
    refine List.mem_map.mpr ⟨t, List.mem_filter.mpr ⟨ht, ?_⟩, rfl⟩
    simpa using h

/-- C7 (witness): the characterisation applied to a singleton collection. -/
theorem criticalPath_mem_iff_slack_zero_witness :
    (1 : Nat) ∈ calculateCriticalPath [⟨1, 0, 5, []⟩] ↔
      slack [⟨1, 0, 5, []⟩] ⟨1, 0, 5, []⟩ = 0 :=
  criticalPath_mem_iff_slack_zero [⟨1, 0, 5, []⟩] ⟨1, 0, 5, []⟩ (by decide) (by decide)

/-- C8: a drag on an existing task shifts both stored dates by the same
whole number of days, namely `deltaX` divided by the current
pixels-per-day scale, rounded to the nearest integer day
(`Math.round`, ties towards positive infinity). -/
theorem handleDragMove_shifts (ts : List Task) (now : Int) (taskId : Nat) (deltaX : ℚ)
    (t : Task) (hfind : ts.find? (fun u => u.id == taskId) = some t) :
    ∃ d : ℤ, d = jsRound (jsDivBy deltaX (pixelsPerDay ts now)) ∧
      handleDragMove ts now taskId deltaX = some (t.start_date + d, t.end_date + d) := by
  refine ⟨jsRound (jsDivBy deltaX (pixelsPerDay ts now)), rfl, ?_⟩
  simp only [handleDragMove, hfind]

/-- C8 (witness): a drag of `250` pixels on task `2` of a two-task
collection spanning `10` days (scale `100` px/day, so a shift of
`round(2.5) = 3` days). -/
theorem handleDragMove_shifts_witness :
    ∃ d : ℤ, d = jsRound (jsDivBy 250 (pixelsPerDay [⟨1, 0, 10, []⟩, ⟨2, 3, 7, []⟩] 0)) ∧
      handleDragMove [⟨1, 0, 10, []⟩, ⟨2, 3, 7, []⟩] 0 2 250 =
        some ((⟨2, 3, 7, []⟩ : Task).start_date + d, (⟨2, 3, 7, []⟩ : Task).end_date + d) :=
  handleDragMove_shifts [⟨1, 0, 10, []⟩, ⟨2, 3, 7, []⟩] 0 2 250 ⟨2, 3, 7, []⟩ (by decide)

/-- C9 (counterexample): the claim says rescheduling a task with no
dependents leaves every other task's computed earliest *and latest*
values unchanged; here task `1` has no dependents, yet extending it to
ten days moves the project finish and with it task `2`'s latest finish. -/
theorem reschedule_changes_other_latest :
    (∀ u ∈ ([⟨1, 0, 1, []⟩, ⟨2, 0, 2, []⟩] : List Task), (1 : Nat) ∉ u.dependencies) ∧
    backwardPass (handleUpdateTaskDates [⟨1, 0, 1, []⟩, ⟨2, 0, 2, []⟩] 1 0 10) 2 ≠
      backwardPass [⟨1, 0, 1, []⟩, ⟨2, 0, 2, []⟩] 2 := by
  decide

/-- C9 (amended): rescheduling a task that appears in no other task's
dependency list leaves every other task's computed earliest-start (the
`forwardPass` value) and duration — hence its earliest-finish — exactly
unchanged; the latest values may still change through the project
finish. -/
theorem reschedule_preserves_others_earliest (ts : List Task) (tId : Nat) (s e : Int)
    (hnodep : ∀ u ∈ ts, u.id ≠ tId → tId ∉ u.dependencies) (i : Nat) (hi : i ≠ tId) :
    forwardPass (handleUpdateTaskDates ts tId s e) i = forwardPass ts i ∧
    durMapOf (handleUpdateTaskDates ts tId s e) i = durMapOf ts i := by
  have hid : ∀ t : Task,
      ((fun t => if t.id = tId then { t with start_date := s, end_date := e } else t) t).id
        = t.id := by
    intro t
    by_cases h : t.id = tId <;> simp [h]
  have hfix : ∀ t : Task, t.id ≠ tId →
      (fun t => if t.id = tId then { t with start_date := s, end_date := e } else t) t = t := by
    intro t h
    simp [h]
  have hdm : ∀ j, j ≠ tId →
      durMapOf (handleUpdateTaskDates ts tId s e) j = durMapOf ts j := by
    intro j hj
    exact durFold_map_agree _ tId hid hfix ts _ _ (fun _ _ => rfl) j hj
  refine ⟨?_, hdm i hi⟩
  have hes : ∀ j, esInit (handleUpdateTaskDates ts tId s e) j = esInit ts j := by
    intro j
    exact esFold_map_eq _ hid ts _ _ (fun _ => rfl) j
  exact fwdFold_map_agree _ tId hid hfix _ _ hdm ts _ _ hnodep (fun j _ => hes j) i hi

/-- C9 (witness): the amended theorem applied to the counterexample
collection — task `2`'s earliest values survive the reschedule of
task `1`. -/
theorem reschedule_preserves_others_earliest_witness :
    forwardPass (handleUpdateTaskDates [⟨1, 0, 1, []⟩, ⟨2, 0, 2, []⟩] 1 0 10) 2 =
      forwardPass [⟨1, 0, 1, []⟩, ⟨2, 0, 2, []⟩] 2 ∧
    durMapOf (handleUpdateTaskDates [⟨1, 0, 1, []⟩, ⟨2, 0, 2, []⟩] 1 0 10) 2 =
      durMapOf [⟨1, 0, 1, []⟩, ⟨2, 0, 2, []⟩] 2 :=
  reschedule_preserves_others_earliest [⟨1, 0, 1, []⟩, ⟨2, 0, 2, []⟩] 1 0 10
    (by decide) 2 (by decide)

/-- C10: releasing a link-drag from source `src` on a distinct target
appends the target's id to the source's dependency list unconditionally —
the stored list becomes `old ++ [target]`, and the occurrence count of
the target grows by one, so a target already present ends up listed
twice.  Dependencies behave as a list, not a set. -/
theorem handleLinkEnd_appends_target (ts : List Task) (src targ : Nat) (t : Task)
    (hne : src ≠ targ) (hfind : ts.find? (fun u => u.id == src) = some t) :
    (handleLinkEnd ts (some src) targ).find? (fun u => u.id == src) =
      some { t with dependencies := t.dependencies ++ [targ] } ∧
    (t.dependencies ++ [targ]).count targ = t.dependencies.count targ + 1 := by
  constructor
  · show (if src = targ then ts
      else match ts.find? (fun u => u.id == src) with
        | none => ts
        | some t => handleUpdateDependencies ts src (t.dependencies ++ [targ])).find?
          (fun u => u.id == src) = some { t with dependencies := t.dependencies ++ [targ] }
    rw [if_neg hne, hfind]
    exact find?_setDependencies ts src _ t hfind
  · simp [List.count_append]

/-- C10 (witness): releasing on task `2`, already a dependency of the
source task `1`, duplicates it: the stored list becomes `[2, 2]`. -/
theorem handleLinkEnd_appends_target_witness :
    (handleLinkEnd [⟨1, 0, 1, [2]⟩, ⟨2, 2, 3, []⟩] (some 1) 2).find? (fun u => u.id == 1) =
      some { (⟨1, 0, 1, [2]⟩ : Task) with dependencies := [2] ++ [2] } ∧
    ([2] ++ [2] : List Nat).count 2 = ([2] : List Nat).count 2 + 1 :=
  handleLinkEnd_appends_target [⟨1, 0, 1, [2]⟩, ⟨2, 2, 3, []⟩] 1 2 ⟨1, 0, 1, [2]⟩
    (by decide) (by decide)

end LGOps
